import Mathlib

/-!
Verification of the real-time audio callback path of a small fundsp/cpal demo.

The program's core is `write_data` (src/main.rs, lines 86-100): it partitions the
device's output buffer into frames of `channels` slots with `chunks_mut`, obtains one
stereo sample per frame from a stateful producer closure, converts both components to
the device's native sample type, and writes the converted left component to every
even-indexed slot of the frame and the converted right component to every odd-indexed
slot.  `run_output` / `run_synth` (lines 32-82) perform device and format negotiation
and abort on every setup failure.

Buffers are modelled as lists, machine floating-point samples as rationals, and the
stateful `FnMut` producer closure as an explicit state-passing function
`next : σ → (ℚ × ℚ) × σ`.  A `chunks_mut` chunk size of zero — a runtime panic in
Rust — is modelled by `Option`.
-/

namespace Fundsp

/-- The native sample types the demo's format dispatch instantiates the stream with:
`f32`, `i16` and `u16` (the three arms of the `match` in `run_output`). -/
inductive NativeType : Type
  | f32
  | i16
  | u16
deriving DecidableEq

/-- The negotiated sample format reported by the host.  `other` stands for every
format outside the known set, i.e. the wildcard arm of the `match` in `run_output`. -/
inductive SampleFormat : Type
  | F32
  | I16
  | U16
  | other
deriving DecidableEq

/-- Modelled from the spec: the Sample Converter (`T::from_sample` of the cpal crate,
invoked at lines 93-94 of src/main.rs, is not part of src/).  Spec 4.2: "convert a
64-bit floating-point sample value into the output device's native representation,
which may be floating-point (pass-through scaling) or a fixed-point integer type of a
specific bit width (requiring range mapping from [-1.0,1.0] to the integer's
representable range, with saturation at the boundaries)".  Samples and native values
are both modelled as rationals: `f32` passes the value through, `i16` maps [-1,1]
affinely onto [-32768, 32767] and `u16` onto [0, 65535], saturating outside. -/
def from_sample : NativeType → ℚ → ℚ
  | .f32, s => s
  | .i16, s => if s < -1 then -32768 else if 1 < s then 32767 else (s + 1) * 65535 / 2 - 32768
  | .u16, s => if s < -1 then 0 else if 1 < s then 65535 else (s + 1) * 65535 / 2

/-- The format dispatch of `run_output` (lines 38-44): each known format is routed to
the streaming setup instantiated at the matching native type; everything else has no
native type and hits the `panic!("Unsupported format")` arm. -/
def formatDispatch : SampleFormat → Option NativeType
  | .F32 => some NativeType.f32
  | .I16 => some NativeType.i16
  | .U16 => some NativeType.u16
  | .other => none

variable {α : Type} {σ : Type}

/-- Recursion core of `chunks_mut` with chunk size `m + 1`, structured on a fuel
argument so that it computes by kernel reduction; `chunks_mut` instantiates the fuel
with the list length, which the recursion never exhausts. -/
def chunksFuel (m : ℕ) : ℕ → List α → List (List α)
  | _, [] => []
  | 0, _ :: _ => []
  | fuel + 1, a :: l => (a :: l).take (m + 1) :: chunksFuel m fuel (l.drop m)

/-- The chunking itself, for the non-zero chunk size `m + 1`. -/
def chunksCore (m : ℕ) (l : List α) : List (List α) :=
  chunksFuel m l.length l

/-- `slice::chunks_mut(channels)` as used by `write_data` (line 91): the buffer is cut
into consecutive chunks of `channels` slots, the last chunk possibly shorter; a chunk
size of zero panics in Rust ("chunk size must be non-zero"), modelled as `none`. -/
def chunks_mut (channels : ℕ) (l : List α) : Option (List (List α)) :=
  match channels with
  | 0 => none
  | m + 1 => some (chunksCore m l)

/-- The inner loop of `write_data` (lines 96-98):
`for (channel, sample) in frame.iter_mut().enumerate()` overwrites each slot with
`left` when `channel & 1 == 0` and with `right` otherwise.  The first argument is the
running `enumerate` index, `0` at the loop entry. -/
def write_frame (left right : α) : ℕ → List α → List α
  | _, [] => []
  | channel, _ :: frame =>
    (if channel &&& 1 = 0 then left else right) :: write_frame left right (channel + 1) frame

/-- The outer loop of `write_data` (lines 91-99): for each frame, invoke the producer
once (`let sample = next_sample();`), convert both components
(`T::from_sample(sample.0)`, `T::from_sample(sample.1)`), fill the frame, and thread
the producer's state to the next frame. -/
def write_frames (conv : ℚ → α) (next : σ → (ℚ × ℚ) × σ) :
    List (List α) → σ → List (List α) × σ
  | [], s => ([], s)
  | frame :: rest, s =>
    let sample := next s
    let r := write_frames conv next rest sample.2
    (write_frame (conv sample.1.1) (conv sample.1.2) 0 frame :: r.1, r.2)

/-- `write_data` (src/main.rs lines 86-100).  `conv` is the `T::from_sample`
conversion for the native type `T`, `output` the device buffer, `next_sample` the
stateful producer closure started in state `s`.  The result is the buffer contents
after the call together with the closure's final state, or `none` when `chunks_mut`
panics on a zero chunk size. -/
def write_data (conv : ℚ → α) (output : List α) (channels : ℕ)
    (next_sample : σ → (ℚ × ℚ) × σ) (s : σ) : Option (List α × σ) :=
  (chunks_mut channels output).map fun frames =>
    let r := write_frames conv next_sample frames s
    (r.1.flatten, r.2)

/-- The producer state after one invocation: `next` returns the pair and the advanced
state, `stepState` keeps only the state. -/
def stepState (next : σ → (ℚ × ℚ) × σ) (s : σ) : σ := (next s).2

/-- The stereo pair returned by the producer's `i`-th invocation (counting from `0`)
when the closure starts in state `s`. -/
def produced (next : σ → (ℚ × ℚ) × σ) (s : σ) (i : ℕ) : ℚ × ℚ :=
  (next ((stepState next)^[i] s)).1

/-- The number of frames `chunks_mut channels` cuts a buffer of length `len` into:
`⌈len / channels⌉`, written with truncating division. -/
def numFrames (channels len : ℕ) : ℕ := (len + channels - 1) / channels

/-- The value the even/odd rule of `write_data` puts into global buffer slot `j`:
slot `j` sits at channel `j % channels` of frame `j / channels`, and receives the
converted left component of that frame's producer invocation on an even channel and
the converted right component on an odd one. -/
def slotValue (conv : ℚ → α) (next : σ → (ℚ × ℚ) × σ) (s : σ) (channels j : ℕ) : α :=
  if j % channels % 2 = 0 then conv (produced next s (j / channels)).1
  else conv (produced next s (j / channels)).2

/-- The buffer indices written by the frame loop, in execution order: each frame
writes its slots left to right at consecutive global offsets starting at `base`. -/
def frameEvents : List (List α) → ℕ → List ℕ
  | [], _ => []
  | frame :: rest, base =>
    (List.range frame.length).map (base + ·) ++ frameEvents rest (base + frame.length)

/-- The host-environment facts `run_output` / `run_synth` consult, one field per
fallible cpal call: whether a default output device exists, the result of
`default_output_config()` (carrying the negotiated sample format), and the results of
`build_output_stream` and `play()`. -/
structure AudioEnv : Type where
  default_output_device : Option Unit
  default_output_config : Except String SampleFormat
  build_output_stream : Except String Unit
  play : Except String Unit

/-- Outcome of the setup path: either some `unwrap` / `expect` / `panic!` fired with a
diagnostic, or the stream is up and running at a native type. -/
inductive StreamOutcome : Type
  | panicked (msg : String)
  | streaming (ty : NativeType)
deriving DecidableEq

/-- `run_synth::<T>` (src/main.rs lines 50-82), setup outcome only: building the
stream is unwrapped (line 75), then `stream.play()` is unwrapped (line 77); on success
the stream runs at the dispatched native type. -/
def run_synth (env : AudioEnv) (ty : NativeType) : StreamOutcome :=
  match env.build_output_stream with
  | .error e => .panicked e
  | .ok _ =>
    match env.play with
    | .error e => .panicked e
    | .ok _ => .streaming ty

/-- `run_output` (src/main.rs lines 32-45): `expect` on the default output device,
`unwrap` on `default_output_config()`, then the format `match` dispatches to
`run_synth::<f32>` / `run_synth::<i16>` / `run_synth::<u16>`, with
`panic!("Unsupported format")` on the wildcard arm. -/
def run_output (env : AudioEnv) : StreamOutcome :=
  match env.default_output_device with
  | none => .panicked "failed to find a default output device"
  | some _ =>
    match env.default_output_config with
    | .error e => .panicked e
    | .ok fmt =>
      match fmt with
      | .F32 => run_synth env NativeType.f32
      | .I16 => run_synth env NativeType.i16
      | .U16 => run_synth env NativeType.u16
      | .other => .panicked "Unsupported format"

/-! ### Basic facts about the chunking -/

lemma chunksFuel_nil (m f : ℕ) : chunksFuel m f ([] : List α) = [] := by
  cases f <;> rfl

lemma chunksFuel_congr (m : ℕ) :
    ∀ (f g : ℕ) (l : List α), l.length ≤ f → l.length ≤ g →
      chunksFuel m f l = chunksFuel m g l := by
  intro f
  induction f with
  | zero =>
    intro g l hf _
    cases l with
    | nil => rw [chunksFuel_nil, chunksFuel_nil]
    | cons a t => simp at hf
  | succ f ih =>
    intro g l hf hg
    cases l with
    | nil => rw [chunksFuel_nil, chunksFuel_nil]
    | cons a t =>
      cases g with
      | zero => simp at hg
      | succ g =>
        simp only [chunksFuel]
        congr 1
        exact ih g (t.drop m) (by simp at hf ⊢; omega) (by simp at hg ⊢; omega)

lemma chunksCore_nil (m : ℕ) : chunksCore m ([] : List α) = [] := rfl

lemma chunksCore_cons (m : ℕ) (a : α) (l : List α) :
    chunksCore m (a :: l) = (a :: l).take (m + 1) :: chunksCore m (l.drop m) := by
  show chunksFuel m (l.length + 1) (a :: l) = _
  simp only [chunksFuel]
  congr 1
  exact chunksFuel_congr m l.length (l.drop m).length (l.drop m) (by simp) (le_refl _)

lemma chunksCore_flatten_aux (m : ℕ) :
    ∀ (n : ℕ) (l : List α), l.length ≤ n → (chunksCore m l).flatten = l := by
  intro n
  induction n with
  | zero =>
    intro l h
    cases l with
    | nil => rfl
    | cons a t => simp at h
  | succ n ih =>
    intro l h
    cases l with
    | nil => rfl
    | cons a t =>
      rw [chunksCore_cons, List.flatten_cons, ih (t.drop m) (by simp at h ⊢; omega),
        List.take_succ_cons, List.cons_append, List.take_append_drop]

/-- `chunks_mut` partitions the buffer: flattening the chunks gives the buffer back. -/
lemma chunksCore_flatten (m : ℕ) (l : List α) : (chunksCore m l).flatten = l :=
  chunksCore_flatten_aux m l.length l (le_refl _)

lemma chunksCore_length_aux (m : ℕ) :
    ∀ (n : ℕ) (l : List α), l.length ≤ n →
      (chunksCore m l).length = (l.length + m) / (m + 1) := by
  intro n
  induction n with
  | zero =>
    intro l h
    cases l with
    | nil => simp [chunksCore_nil, Nat.div_eq_of_lt (Nat.lt_succ_self m)]
    | cons a t => simp at h
  | succ n ih =>
    intro l h
    cases l with
    | nil => simp [chunksCore_nil, Nat.div_eq_of_lt (Nat.lt_succ_self m)]
    | cons a t =>
      rw [chunksCore_cons]
      simp only [List.length_cons]
      rw [ih (t.drop m) (by simp at h ⊢; omega)]
      rcases le_or_lt t.length m with hle | hlt
      · rw [List.drop_eq_nil_of_le hle]
        simp only [List.length_nil, Nat.zero_add]
        rw [Nat.div_eq_of_lt (Nat.lt_succ_self m), Nat.div_eq_of_lt_le] <;> omega
      · rw [List.length_drop]
        have e1 : t.length - m + m = t.length := by omega
        have e2 : t.length + 1 + m = m + 1 + t.length := by omega
        rw [e1, e2, Nat.add_comm (m + 1) t.length, Nat.add_div_right _ (Nat.succ_pos m)]

/-- The number of chunks `chunks_mut (m+1)` produces: `⌈length / (m+1)⌉`. -/
lemma chunksCore_length (m : ℕ) (l : List α) :
    (chunksCore m l).length = numFrames (m + 1) l.length := by
  have := chunksCore_length_aux m l.length l (le_refl _)
  simpa [numFrames] using this

lemma chunksCore_getElem_aux (m : ℕ) :
    ∀ (n : ℕ) (l : List α), l.length ≤ n →
      ∀ (i : ℕ) (hi : i < (chunksCore m l).length),
        (chunksCore m l)[i] = (l.drop (i * (m + 1))).take (m + 1) := by
  intro n
  induction n with
  | zero =>
    intro l h i hi
    cases l with
    | nil => simp [chunksCore_nil] at hi
    | cons a t => simp at h
  | succ n ih =>
    intro l h i hi
    cases l with
    | nil => simp [chunksCore_nil] at hi
    | cons a t =>
      have e := chunksCore_cons m a t
      have hi2 : i < ((a :: t).take (m + 1) :: chunksCore m (t.drop m)).length := by
        rw [← e]; exact hi
      rw [List.getElem_of_eq e hi]
      cases i with
      | zero => simp
      | succ i =>
        simp only [List.getElem_cons_succ]
        rw [ih (t.drop m) (by simp at h ⊢; omega) i (by simpa using hi2), List.drop_drop]
        have e2 : (i + 1) * (m + 1) = (m + i * (m + 1)) + 1 := by ring
        rw [e2, List.drop_succ_cons]

/-- Chunk `i` is the slice of `m+1` slots starting at offset `i * (m+1)`. -/
lemma chunksCore_getElem (m : ℕ) (l : List α) (i : ℕ) (hi : i < (chunksCore m l).length) :
    (chunksCore m l)[i] = (l.drop (i * (m + 1))).take (m + 1) :=
  chunksCore_getElem_aux m l.length l (le_refl _) i hi

/-- Every chunk is nonempty and no longer than the chunk size. -/
lemma chunksCore_mem_length (m : ℕ) (l : List α) :
    ∀ fr ∈ chunksCore m l, 1 ≤ fr.length ∧ fr.length ≤ m + 1 := by
  intro fr hfr
  obtain ⟨i, hi, rfl⟩ := List.getElem_of_mem hfr
  rw [chunksCore_getElem m l i hi]
  rw [chunksCore_length] at hi
  simp only [List.length_take, List.length_drop]
  constructor
  · have h2 : i + 1 ≤ numFrames (m + 1) l.length := hi
    have h3 : (i + 1) * (m + 1) ≤ l.length + (m + 1) - 1 :=
      (Nat.le_div_iff_mul_le (Nat.succ_pos m)).mp h2
    have e : (i + 1) * (m + 1) = i * (m + 1) + (m + 1) := by ring
    omega
  · omega

/-! ### The frame loop -/

lemma produced_zero (next : σ → (ℚ × ℚ) × σ) (s : σ) : produced next s 0 = (next s).1 := rfl

lemma produced_succ (next : σ → (ℚ × ℚ) × σ) (s : σ) (i : ℕ) :
    produced next s (i + 1) = produced next (stepState next s) i := by
  simp only [produced, Function.iterate_succ_apply]

/-- The inner loop writes the alternating left/right pattern, starting at the parity
of the initial `enumerate` index. -/
lemma write_frame_eq (left right : α) :
    ∀ (c : ℕ) (frame : List α),
      write_frame left right c frame =
        (List.range frame.length).map (fun j => if (c + j) % 2 = 0 then left else right) := by
  intro c frame
  induction frame generalizing c with
  | nil => rfl
  | cons b fr ih =>
    simp only [write_frame, List.length_cons, List.range_succ_eq_map, List.map_cons,
      List.map_map, Nat.and_one_is_mod]
    congr 1
    rw [ih (c + 1)]
    apply List.map_congr_left
    intro j hj
    have e : c + (j + 1) = c + 1 + j := by omega
    simp [Function.comp, Nat.succ_eq_add_one, e]

/-- The producer state advances exactly once per frame. -/
lemma write_frames_snd (conv : ℚ → α) (next : σ → (ℚ × ℚ) × σ) :
    ∀ (frames : List (List α)) (s : σ),
      (write_frames conv next frames s).2 = (stepState next)^[frames.length] s := by
  intro frames
  induction frames with
  | nil => intro s; rfl
  | cons fr rest ih =>
    intro s
    simp only [write_frames, List.length_cons]
    rw [ih, Function.iterate_succ_apply]
    rfl

/-- Master equation of the frame loop: for a non-zero channel count `m + 1`, the
buffer produced by `write_data` is exactly the per-slot even/odd formula `slotValue`,
independent of the buffer's previous contents. -/
lemma write_flatten_eq_aux (m : ℕ) (conv : ℚ → α) (next : σ → (ℚ × ℚ) × σ) :
    ∀ (n : ℕ) (l : List α), l.length ≤ n → ∀ (s : σ),
      (write_frames conv next (chunksCore m l) s).1.flatten =
        (List.range l.length).map (slotValue conv next s (m + 1)) := by
  intro n
  induction n with
  | zero =>
    intro l h s
    cases l with
    | nil => rfl
    | cons a t => simp at h
  | succ n ih =>
    intro l h s
    cases l with
    | nil => rfl
    | cons a t =>
      rw [chunksCore_cons]
      simp only [write_frames, List.flatten_cons]
      rw [ih (t.drop m) (by simp at h ⊢; omega) ((next s).2), write_frame_eq,
        List.length_drop]
      rcases le_or_lt t.length m with hle | hlt
      · have hz : t.length - m = 0 := Nat.sub_eq_zero_of_le hle
        have hlen : ((a :: t).take (m + 1)).length = t.length + 1 := by
          simp only [List.length_take, List.length_cons]; omega
        rw [hz, hlen]
        simp only [List.range_zero, List.map_nil, List.append_nil, List.length_cons]
        apply List.map_congr_left
        intro j hj
        rw [List.mem_range] at hj
        have hj2 : j < m + 1 := by omega
        simp only [slotValue, Nat.zero_add]
        rw [Nat.mod_eq_of_lt hj2, Nat.div_eq_of_lt hj2]
        rfl
      · have hlen : ((a :: t).take (m + 1)).length = m + 1 := by
          simp only [List.length_take, List.length_cons]; omega
        have hsplit : t.length + 1 = (m + 1) + (t.length - m) := by omega
        rw [hlen, List.length_cons, hsplit, List.range_add (m + 1) (t.length - m),
          List.map_append, List.map_map]
        congr 1
        · apply List.map_congr_left
          intro j hj
          rw [List.mem_range] at hj
          simp only [slotValue, Nat.zero_add]
          rw [Nat.mod_eq_of_lt hj, Nat.div_eq_of_lt hj]
          rfl
        · apply List.map_congr_left
          intro j hj
          simp only [Function.comp_apply, slotValue, Nat.add_mod_left]
          rw [Nat.add_comm (m + 1) j, Nat.add_div_right _ (Nat.succ_pos m),
            produced_succ]
          rfl

/-- `write_data` at channel count `m + 1`: the resulting buffer is the `slotValue`
formula at every slot and the producer state advances once per frame. -/
lemma write_data_succ_eq (m : ℕ) (conv : ℚ → α) (next : σ → (ℚ × ℚ) × σ)
    (output : List α) (s : σ) :
    write_data conv output (m + 1) next s =
      some ((List.range output.length).map (slotValue conv next s (m + 1)),
        (stepState next)^[numFrames (m + 1) output.length] s) := by
  have h0 : write_data conv output (m + 1) next s =
      some ((write_frames conv next (chunksCore m output) s).1.flatten,
        (write_frames conv next (chunksCore m output) s).2) := rfl
  rw [h0, write_flatten_eq_aux m conv next output.length output (le_refl _) s,
    write_frames_snd, chunksCore_length]

/-- Every chunk but the last has exactly the chunk size. -/
lemma chunksCore_complete (m : ℕ) (l : List α) (i : ℕ)
    (hi : i < (chunksCore m l).length) (hlast : i + 1 < (chunksCore m l).length) :
    (chunksCore m l)[i].length = m + 1 := by
  rw [chunksCore_getElem m l i hi]
  rw [chunksCore_length] at hlast
  simp only [List.length_take, List.length_drop]
  have h2 : i + 2 ≤ numFrames (m + 1) l.length := hlast
  have h3 : (i + 2) * (m + 1) ≤ l.length + (m + 1) - 1 :=
    (Nat.le_div_iff_mul_le (Nat.succ_pos m)).mp h2
  have e : (i + 2) * (m + 1) = i * (m + 1) + (m + 1) + (m + 1) := by ring
  omega

/-! ### Write events -/

lemma frameEvents_eq :
    ∀ (frames : List (List α)) (base : ℕ),
      frameEvents frames base =
        (List.range (frames.map List.length).sum).map (base + ·) := by
  intro frames
  induction frames with
  | nil => intro base; rfl
  | cons fr rest ih =>
    intro base
    simp only [frameEvents, List.map_cons, List.sum_cons]
    rw [ih (base + fr.length), List.range_add fr.length ((rest.map List.length).sum),
      List.map_append, List.map_map]
    congr 1
    apply List.map_congr_left
    intro j hj
    simp only [Function.comp_apply]
    omega

/-- Executing the frame loop on the chunked buffer writes the slots `0, 1, …, L-1`
in that order, each exactly once. -/
lemma frameEvents_chunksCore (m : ℕ) (l : List α) :
    frameEvents (chunksCore m l) 0 = List.range l.length := by
  rw [frameEvents_eq]
  have hsum : ((chunksCore m l).map List.length).sum = l.length := by
    rw [← List.length_flatten, chunksCore_flatten]
  rw [hsum]
  simp

/-! ### The claims -/

/-- C1: For every buffer and every channel count N ≥ 1, in every complete frame
(group of N consecutive slots) the Frame Writer assigns the converted left component
of that frame's single sample-producer result to every even-indexed channel slot and
the converted right component to every odd-indexed slot. -/
theorem frame_writer_even_left_odd_right (conv : ℚ → α) (next : σ → (ℚ × ℚ) × σ)
    (s : σ) (output : List α) (channels : ℕ) (hch : 1 ≤ channels)
    (i c : ℕ) (hc : c < channels) (hcomplete : (i + 1) * channels ≤ output.length)
    (res : List α) (s' : σ)
    (hw : write_data conv output channels next s = some (res, s'))
    (hlt : i * channels + c < res.length) :
    res[i * channels + c] =
      if c % 2 = 0 then conv (produced next s i).1 else conv (produced next s i).2 := by
  obtain ⟨m, rfl⟩ : ∃ m, channels = m + 1 := ⟨channels - 1, by omega⟩
  rw [write_data_succ_eq] at hw
  simp only [Option.some.injEq, Prod.mk.injEq] at hw
  obtain ⟨hres, hs⟩ := hw
  subst hres
  have hL : i * (m + 1) + c < output.length := by
    have e : (i + 1) * (m + 1) = i * (m + 1) + (m + 1) := by ring
    omega
  rw [List.getElem_map, List.getElem_range]
  have hdiv : (i * (m + 1) + c) / (m + 1) = i := by
    rw [Nat.add_comm, Nat.add_mul_div_right _ _ (Nat.succ_pos m), Nat.div_eq_of_lt hc,
      Nat.zero_add]
  have hmod : (i * (m + 1) + c) % (m + 1) = c := by
    rw [Nat.mul_comm, Nat.mul_add_mod, Nat.mod_eq_of_lt hc]
  simp only [slotValue, hdiv, hmod]

theorem frame_writer_even_left_odd_right_witness :
    ([(3 : ℚ), 5, 3, 5] : List ℚ)[0 * 4 + 3] = 5 := by
  have h := frame_writer_even_left_odd_right (fun q => q)
      (fun _ : Unit => (((3 : ℚ), (5 : ℚ)), ())) () ([0, 0, 0, 0] : List ℚ) 4
      (by norm_num) 0 3 (by norm_num) (by norm_num) [3, 5, 3, 5] () (by decide)
      (by norm_num)
  rw [h]
  decide

/-- C2 counterexample: a buffer of length 7 with channel count 2 triggers 4 producer
invocations (witnessed by a counting producer whose state is the invocation count),
not floor(7 / 2) = 3 as the claim demands. -/
theorem sample_count_floor_cex :
    write_data (fun q => q) (List.replicate 7 (0 : ℚ)) 2
        (fun c : ℕ => (((0 : ℚ), (0 : ℚ)), c + 1)) 0 =
      some (List.replicate 7 (0 : ℚ), 4) ∧ (4 : ℕ) ≠ 7 / 2 :=
  ⟨by decide, by decide⟩

/-- C2 (amended): a single call of the Frame Writer invokes the sample producer
exactly ⌈L / N⌉ times (`numFrames`): the producer's final state is the start state
advanced by exactly that many invocations. -/
theorem sample_count_ceil (conv : ℚ → α) (next : σ → (ℚ × ℚ) × σ) (s : σ)
    (output : List α) (channels : ℕ) (hch : 1 ≤ channels) (res : List α) (s' : σ)
    (hw : write_data conv output channels next s = some (res, s')) :
    s' = (stepState next)^[numFrames channels output.length] s := by
  obtain ⟨m, rfl⟩ : ∃ m, channels = m + 1 := ⟨channels - 1, by omega⟩
  rw [write_data_succ_eq] at hw
  simp only [Option.some.injEq, Prod.mk.injEq] at hw
  exact hw.2.symm

theorem sample_count_ceil_witness :
    (4 : ℕ) = (stepState (fun c : ℕ => (((0 : ℚ), (0 : ℚ)), c + 1)))^[numFrames 2 7] 0 := by
  have h := sample_count_ceil (fun q => q) (fun c : ℕ => (((0 : ℚ), (0 : ℚ)), c + 1)) 0
      (List.replicate 7 (0 : ℚ)) 2 (by norm_num) (List.replicate 7 (0 : ℚ)) 4 (by decide)
  simpa using h

/-- C3 counterexample: with buffer length 7 and channel count 2 the Frame Writer also
writes the 7th slot (index 6): it changes from the prior content 9 to the converted
left component 1 of a fourth sample, so the trailing `L mod N` slots are not left
untouched. -/
theorem untouched_tail_cex :
    write_data (fun q => q) ([9, 9, 9, 9, 9, 9, 9] : List ℚ) 2
        (fun _ : Unit => (((1 : ℚ), (2 : ℚ)), ())) () =
      some ([1, 2, 1, 2, 1, 2, 1], ()) ∧
    ([1, 2, 1, 2, 1, 2, 1] : List ℚ)[6] ≠ ([9, 9, 9, 9, 9, 9, 9] : List ℚ)[6] :=
  ⟨by decide, by decide⟩

/-- C3 (amended): for every channel count N ≥ 1 and every buffer length L, the Frame
Writer writes all L slots — the trailing L mod N slots form a short frame that is
written as well: every slot of the result carries the even/odd `slotValue` formula,
independent of the buffer's previous contents. -/
theorem frame_writer_writes_all (conv : ℚ → α) (next : σ → (ℚ × ℚ) × σ) (s : σ)
    (output : List α) (channels : ℕ) (hch : 1 ≤ channels) (res : List α) (s' : σ)
    (hw : write_data conv output channels next s = some (res, s')) :
    res.length = output.length ∧
      ∀ (j : ℕ) (hj : j < res.length), res[j] = slotValue conv next s channels j := by
  obtain ⟨m, rfl⟩ : ∃ m, channels = m + 1 := ⟨channels - 1, by omega⟩
  rw [write_data_succ_eq] at hw
  simp only [Option.some.injEq, Prod.mk.injEq] at hw
  obtain ⟨hres, hs⟩ := hw
  subst hres
  refine ⟨by simp, ?_⟩
  intro j hj
  simp only [List.length_map, List.length_range] at hj
  rw [List.getElem_map, List.getElem_range]

theorem frame_writer_writes_all_witness :
    ([1, 2, 1, 2, 1, 2, 1] : List ℚ).length = ([9, 9, 9, 9, 9, 9, 9] : List ℚ).length ∧
    ([1, 2, 1, 2, 1, 2, 1] : List ℚ)[6] =
      slotValue (fun q => q) (fun _ : Unit => (((1 : ℚ), (2 : ℚ)), ())) () 2 6 := by
  have h := frame_writer_writes_all (fun q => q)
      (fun _ : Unit => (((1 : ℚ), (2 : ℚ)), ())) () ([9, 9, 9, 9, 9, 9, 9] : List ℚ) 2
      (by norm_num) [1, 2, 1, 2, 1, 2, 1] () (by decide)
  exact ⟨h.1, h.2 6 (by norm_num)⟩

/-- C4: every slot of the buffer is written exactly once per call and no slot is read
before being written: the chunks partition the buffer into consecutive groups of
`channels` slots (all complete except a possibly short, nonempty last group), the
write events are the indices `0, …, L-1` in order, each exactly once, and the result
of `write_data` does not depend on the buffer's previous contents. -/
theorem frame_writer_slot_discipline (conv : ℚ → α) (next : σ → (ℚ × ℚ) × σ) (s : σ)
    (output : List α) (channels : ℕ) (hch : 1 ≤ channels)
    (frames : List (List α)) (hfr : chunks_mut channels output = some frames) :
    frames.flatten = output ∧
    (∀ fr ∈ frames, 1 ≤ fr.length ∧ fr.length ≤ channels) ∧
    (∀ (i : ℕ) (hi : i < frames.length), i + 1 < frames.length →
      frames[i].length = channels) ∧
    frameEvents frames 0 = List.range output.length ∧
    (∀ output' : List α, output'.length = output.length →
      write_data conv output channels next s = write_data conv output' channels next s) := by
  obtain ⟨m, rfl⟩ : ∃ m, channels = m + 1 := ⟨channels - 1, by omega⟩
  have hfr2 : frames = chunksCore m output := by
    simp only [chunks_mut, Option.some.injEq] at hfr
    exact hfr.symm
  subst hfr2
  refine ⟨chunksCore_flatten m output, chunksCore_mem_length m output,
    fun i hi hlast => chunksCore_complete m output i hi hlast,
    frameEvents_chunksCore m output, ?_⟩
  intro output' hlen
  rw [write_data_succ_eq, write_data_succ_eq, hlen]

theorem frame_writer_slot_discipline_witness :
    frameEvents ([[9, 9], [9]] : List (List ℚ)) 0 =
      List.range ([9, 9, 9] : List ℚ).length := by
  have h := frame_writer_slot_discipline (fun q => q)
      (fun _ : Unit => (((0 : ℚ), (0 : ℚ)), ())) () ([9, 9, 9] : List ℚ) 2
      (by norm_num) [[9, 9], [9]] (by decide)
  exact h.2.2.2.1

/-- C5: exactly one stereo sample is obtained from the producer per output frame —
the producer advances once per frame (final state = start state stepped `numFrames`
times) and every slot of a frame holds a converted component of that frame's single
sample, never a regenerated one. -/
theorem one_sample_per_frame (conv : ℚ → α) (next : σ → (ℚ × ℚ) × σ) (s : σ)
    (output : List α) (channels : ℕ) (hch : 1 ≤ channels) (res : List α) (s' : σ)
    (hw : write_data conv output channels next s = some (res, s')) :
    s' = (stepState next)^[numFrames channels output.length] s ∧
    ∀ (j : ℕ) (hj : j < res.length),
      res[j] = conv (produced next s (j / channels)).1 ∨
      res[j] = conv (produced next s (j / channels)).2 := by
  obtain ⟨m, rfl⟩ : ∃ m, channels = m + 1 := ⟨channels - 1, by omega⟩
  rw [write_data_succ_eq] at hw
  simp only [Option.some.injEq, Prod.mk.injEq] at hw
  obtain ⟨hres, hs⟩ := hw
  subst hres
  refine ⟨hs.symm, ?_⟩
  intro j hj
  simp only [List.length_map, List.length_range] at hj
  rw [List.getElem_map, List.getElem_range]
  simp only [slotValue]
  rcases Nat.decEq (j % (m + 1) % 2) 0 with h0 | h0
  · right
    rw [if_neg h0]
  · left
    rw [if_pos h0]

theorem one_sample_per_frame_witness :
    ([1, 2, 1, 1, 2] : List ℚ)[4] =
      (fun q => q) (produced (fun _ : Unit => (((1 : ℚ), (2 : ℚ)), ())) () (4 / 3)).1 ∨
    ([1, 2, 1, 1, 2] : List ℚ)[4] =
      (fun q => q) (produced (fun _ : Unit => (((1 : ℚ), (2 : ℚ)), ())) () (4 / 3)).2 := by
  have h := one_sample_per_frame (fun q => q)
      (fun _ : Unit => (((1 : ℚ), (2 : ℚ)), ())) () ([0, 0, 0, 0, 0] : List ℚ) 3
      (by norm_num) [1, 2, 1, 1, 2] () (by decide)
  exact h.2 4 (by norm_num)

/-- C6: when the channel count is 1 (mono device), only the left component of each
stereo sample is ever written: every slot of the result is the converted left
component of the corresponding invocation, and the right component never surfaces. -/
theorem mono_writes_left_only (conv : ℚ → α) (next : σ → (ℚ × ℚ) × σ) (s : σ)
    (output : List α) (res : List α) (s' : σ)
    (hw : write_data conv output 1 next s = some (res, s')) :
    res.length = output.length ∧
    ∀ (j : ℕ) (hj : j < res.length), res[j] = conv (produced next s j).1 := by
  have h1 : (1 : ℕ) = 0 + 1 := rfl
  rw [h1, write_data_succ_eq] at hw
  simp only [Option.some.injEq, Prod.mk.injEq] at hw
  obtain ⟨hres, hs⟩ := hw
  subst hres
  refine ⟨by simp, ?_⟩
  intro j hj
  simp only [List.length_map, List.length_range] at hj
  rw [List.getElem_map, List.getElem_range]
  simp [slotValue, Nat.mod_one, Nat.div_one]

theorem mono_writes_left_only_witness :
    ([32767, 32767, 32767, 32767] : List ℚ)[2] =
      from_sample NativeType.i16
        (produced (fun _ : Unit => (((1 : ℚ), (-1 : ℚ)), ())) () 2).1 := by
  have h := mono_writes_left_only (from_sample NativeType.i16)
      (fun _ : Unit => (((1 : ℚ), (-1 : ℚ)), ())) () ([0, 0, 0, 0] : List ℚ)
      [32767, 32767, 32767, 32767] ()
      (by norm_num [write_data, chunks_mut, chunksCore, chunksFuel, write_frames,
        write_frame, from_sample])
  exact h.2 2 (by norm_num)

/-- C7 counterexample: the float format does not saturate: the out-of-range inputs 2
and 3 pass through to two different output values, so inputs above 1.0 do not all map
to one maximum representable value for every supported native output type. -/
theorem converter_f32_no_saturation_cex :
    from_sample NativeType.f32 2 = 2 ∧ from_sample NativeType.f32 3 = 3 ∧ (2 : ℚ) ≠ 3 :=
  ⟨rfl, rfl, by norm_num⟩

/-- C7 (amended): the Sample Converter is a deterministic total function; for the
fixed-point formats it saturates (inputs below -1 map to the minimum representable
value, inputs above 1 to the maximum) and its output never leaves the representable
range (no wrapping); the floating-point format passes the value through unchanged. -/
theorem converter_saturates (q : ℚ) :
    (q < -1 → from_sample NativeType.i16 q = -32768 ∧ from_sample NativeType.u16 q = 0) ∧
    (1 < q → from_sample NativeType.i16 q = 32767 ∧ from_sample NativeType.u16 q = 65535) ∧
    from_sample NativeType.f32 q = q ∧
    -32768 ≤ from_sample NativeType.i16 q ∧ from_sample NativeType.i16 q ≤ 32767 ∧
    0 ≤ from_sample NativeType.u16 q ∧ from_sample NativeType.u16 q ≤ 65535 := by
  simp only [from_sample]
  refine ⟨fun h => ⟨if_pos h, if_pos h⟩, fun h => ?_, trivial, ?_, ?_, ?_, ?_⟩
  · have h2 : ¬ q < -1 := by linarith
    exact ⟨by rw [if_neg h2, if_pos h], by rw [if_neg h2, if_pos h]⟩
  · split_ifs with h1 h2
    · norm_num
    · norm_num
    · push_neg at h1
      linarith
  · split_ifs with h1 h2
    · norm_num
    · norm_num
    · push_neg at h1 h2
      linarith
  · split_ifs with h1 h2
    · norm_num
    · norm_num
    · push_neg at h1
      linarith
  · split_ifs with h1 h2
    · norm_num
    · norm_num
    · push_neg at h1 h2
      linarith

theorem converter_saturates_witness :
    from_sample NativeType.i16 2 = 32767 ∧ from_sample NativeType.u16 2 = 65535 :=
  (converter_saturates 2).2.1 (by norm_num)

/-- C8 counterexample: a host environment where a default output device exists, the
stream would build and play fine, and no out-of-set format was negotiated — yet setup
aborts, because `default_output_config()` itself fails and is unwrapped.  This abort
case is missing from the claim's list. -/
theorem output_driver_config_abort_cex :
    run_output ⟨some (), Except.error "could not get default output config",
        Except.ok (), Except.ok ()⟩ =
      StreamOutcome.panicked "could not get default output config" ∧
    (some () : Option Unit) ≠ none ∧
    (Except.error "could not get default output config" :
        Except String SampleFormat) ≠ Except.ok SampleFormat.other ∧
    (Except.ok () : Except String Unit) = Except.ok () := by
  refine ⟨rfl, by simp, ?_, rfl⟩
  intro h
  exact Except.noConfusion h

/-- C8 (amended): setup aborts with a diagnostic in exactly these cases: no default
output device; `default_output_config()` fails; the negotiated format is outside the
known set F32/I16/U16; building the stream fails; starting (playing) the stream
fails.  For each known format, setup dispatches to the streaming setup at the
matching native type, and a fully successful environment streams — no retry or
fallback path exists. -/
theorem output_driver_abort_cases (env : AudioEnv) :
    (env.default_output_device = none →
      run_output env = StreamOutcome.panicked "failed to find a default output device") ∧
    (∀ e, env.default_output_device ≠ none → env.default_output_config = Except.error e →
      run_output env = StreamOutcome.panicked e) ∧
    (env.default_output_device ≠ none →
      env.default_output_config = Except.ok SampleFormat.other →
      run_output env = StreamOutcome.panicked "Unsupported format") ∧
    (∀ fmt ty, env.default_output_device ≠ none → env.default_output_config = Except.ok fmt →
      formatDispatch fmt = some ty → run_output env = run_synth env ty) ∧
    (∀ ty e, env.build_output_stream = Except.error e →
      run_synth env ty = StreamOutcome.panicked e) ∧
    (∀ ty e, env.build_output_stream = Except.ok () → env.play = Except.error e →
      run_synth env ty = StreamOutcome.panicked e) ∧
    (∀ ty, env.build_output_stream = Except.ok () → env.play = Except.ok () →
      run_synth env ty = StreamOutcome.streaming ty) := by
  obtain ⟨dev, cfg, bld, pl⟩ := env
  dsimp only
  refine ⟨?_, ?_, ?_, ?_, ?_, ?_, ?_⟩
  · intro h
    subst h
    rfl
  · intro e hne hcfg
    subst hcfg
    cases dev with
    | none => exact absurd rfl hne
    | some u => rfl
  · intro hne hcfg
    subst hcfg
    cases dev with
    | none => exact absurd rfl hne
    | some u => rfl
  · intro fmt ty hne hcfg hdisp
    subst hcfg
    cases dev with
    | none => exact absurd rfl hne
    | some u =>
      cases fmt with
      | F32 =>
        simp only [formatDispatch, Option.some.injEq] at hdisp
        subst hdisp
        rfl
      | I16 =>
        simp only [formatDispatch, Option.some.injEq] at hdisp
        subst hdisp
        rfl
      | U16 =>
        simp only [formatDispatch, Option.some.injEq] at hdisp
        subst hdisp
        rfl
      | other => exact Option.noConfusion hdisp
  · intro ty e hbld
    subst hbld
    rfl
  · intro ty e hbld hpl
    subst hbld
    subst hpl
    rfl
  · intro ty hbld hpl
    subst hbld
    subst hpl
    rfl

theorem output_driver_abort_cases_witness :
    run_output ⟨none, Except.ok SampleFormat.F32, Except.ok (), Except.ok ()⟩ =
      StreamOutcome.panicked "failed to find a default output device" :=
  (output_driver_abort_cases
    ⟨none, Except.ok SampleFormat.F32, Except.ok (), Except.ok ()⟩).1 rfl

/-- C9: samples are consumed in strict monotonic time order: the slots of the `i`-th
frame are filled from the `i`-th producer invocation (counting from the start of the
buffer fill), and the producer's state advances exactly one step per frame — no
reordering, skipping or replay. -/
theorem strict_time_order (conv : ℚ → α) (next : σ → (ℚ × ℚ) × σ) (s : σ)
    (output : List α) (channels : ℕ) (hch : 1 ≤ channels) (res : List α) (s' : σ)
    (hw : write_data conv output channels next s = some (res, s')) :
    s' = (stepState next)^[numFrames channels output.length] s ∧
    ∀ (i c : ℕ), c < channels → ∀ (hlt : i * channels + c < res.length),
      res[i * channels + c] =
        if c % 2 = 0 then conv (produced next s i).1 else conv (produced next s i).2 := by
  obtain ⟨m, rfl⟩ : ∃ m, channels = m + 1 := ⟨channels - 1, by omega⟩
  rw [write_data_succ_eq] at hw
  simp only [Option.some.injEq, Prod.mk.injEq] at hw
  obtain ⟨hres, hs⟩ := hw
  subst hres
  refine ⟨hs.symm, ?_⟩
  intro i c hc hlt
  simp only [List.length_map, List.length_range] at hlt
  rw [List.getElem_map, List.getElem_range]
  have hdiv : (i * (m + 1) + c) / (m + 1) = i := by
    rw [Nat.add_comm, Nat.add_mul_div_right _ _ (Nat.succ_pos m), Nat.div_eq_of_lt hc,
      Nat.zero_add]
  have hmod : (i * (m + 1) + c) % (m + 1) = c := by
    rw [Nat.mul_comm, Nat.mul_add_mod, Nat.mod_eq_of_lt hc]
  simp only [slotValue, hdiv, hmod]

theorem strict_time_order_witness :
    ([3, 4, 7] : List ℚ)[1 * 2 + 0] = 7 := by
  have h := strict_time_order (fun q => q)
      (fun c : ℕ => ((if c = 0 then (3 : ℚ) else 7, if c = 0 then (4 : ℚ) else 8), c + 1))
      0 ([0, 0, 0] : List ℚ) 2 (by norm_num) [3, 4, 7] 2 (by decide)
  have h2 := h.2 1 0 (by norm_num) (by norm_num)
  rw [h2]
  decide

/-- C10: the Frame Writer requires a channel count of at least 1: for every non-empty
buffer, channel count 0 makes the chunking panic at runtime (`chunks_mut` rejects a
zero chunk size), so the call never completes normally. -/
theorem zero_channels_panics (conv : ℚ → α) (next : σ → (ℚ × ℚ) × σ) (s : σ)
    (output : List α) (_hne : output ≠ []) :
    write_data conv output 0 next s = none := rfl

theorem zero_channels_panics_witness :
    write_data (fun q => q) ([5] : List ℚ) 0
      (fun _ : Unit => (((0 : ℚ), (0 : ℚ)), ())) () = none :=
  zero_channels_panics (fun q => q) (fun _ : Unit => (((0 : ℚ), (0 : ℚ)), ())) ()
    [5] (by decide)

end Fundsp
